import Mathlib

/-!
# Verification of the oxiclean module-resolution and import-graph core

This file gives a shallow embedding, in Lean 4, of the core of the
`oxiclean` static-analysis tool (crates `oxiclean_core`,
`oxiclean_import_bloat`, `oxiclean_import_depth`) and proves properties of
that embedding.

Modelling conventions:

* An absolute filesystem path is a list of path segments (`FPath`).
  The empty list is the filesystem root `/`.
* Rust strings are Lean `String`s; Rust byte lengths and byte slicing
  coincide with the character-based Lean operations on the ASCII inputs
  all claims are about.
* The filesystem is a structure of pure functions (`FS`): `isFile`,
  `isDir`, a canonicalization function `canon` (modelling
  `Path::canonicalize().unwrap_or(..)`, which is total), and `readJson`
  which yields the parsed JSON value of a file when the file exists, is
  readable, and parses (the three chained conditions of
  `resolver.rs::resolve_node_module`).
* The `DashMap` caches become explicit functional state (`V → Option β`
  maps passed and returned), and the mutable `visiting : HashSet` of the
  depth analyzer becomes a `Finset` argument.  The Rust code removes a
  node from `visiting` before every `return`, so across sibling calls the
  set is exactly "ancestors of the current call"; passing the set downward
  functionally is therefore an exact rendering.
-/

namespace Oxiclean

/-- An absolute path, as its list of segments below the root. -/
abbrev FPath := List String

/-!
String primitives. Rust's `str` operations work on bytes; on the ASCII
strings all claims are about, bytes coincide with characters, so the
operations are modelled on the character list `String.data`. They are
defined by structural recursion so that concrete instances evaluate
inside the kernel.
-/

/-- Rust `str::starts_with` (`String.startsWith`). -/
def strStartsWith (s pre : String) : Bool :=
  pre.data.isPrefixOf s.data

/-- Rust `str::ends_with` (`String.endsWith`). -/
def strEndsWith (s post : String) : Bool :=
  post.data.isSuffixOf s.data

/-- Rust `str::len` (byte length; character count on ASCII). -/
def strLen (s : String) : Nat :=
  s.data.length

/-- Rust byte-index slicing `s.get(n..).unwrap_or("")` (character-based
on ASCII). -/
def strDrop (s : String) (n : Nat) : String :=
  ⟨s.data.drop n⟩

/-- Drop the last `n` characters (for `trim_end_matches`). -/
def strDropRight (s : String) (n : Nat) : String :=
  ⟨s.data.take (s.data.length - n)⟩

/-- Rust `str::split('/')` on the character level. -/
def splitSlash : List Char → List String
  | [] => [""]
  | c :: rest =>
    let r := splitSlash rest
    if c = '/' then "" :: r
    else
      match r with
      | [] => [⟨[c]⟩]
      | h :: t => (⟨c :: h.data⟩ : String) :: t

/-- Rust `request.split('/')` / `str::splitOn "/"`. -/
def strSplitSlash (s : String) : List String :=
  splitSlash s.data

/-- A parsed JSON value, at the granularity inspected by
`resolver.rs::resolve_node_module` (`serde_json::Value` restricted to the
operations `get`, `as_str`, `as_object` that the code performs). -/
inductive Json where
  | str : String → Json
  | obj : List (String × Json) → Json
  | other : Json

/-- `serde_json::Value::get(key)`: field lookup on an object, `None` otherwise. -/
def Json.get : Json → String → Option Json
  | .obj fields, k => (fields.find? (fun f => f.1 = k)).map (·.2)
  | _, _ => none

/-- `serde_json::Value::as_str`. -/
def Json.asStr : Json → Option String
  | .str s => some s
  | _ => none

/-- `serde_json::Value::as_object` (we only need to know whether it is an
object; the subsequent `get` calls go through `Json.get`). -/
def Json.isObj : Json → Bool
  | .obj _ => true
  | _ => false

/-- The filesystem state seen by the resolver, as pure functions. -/
structure FS where
  isFile : FPath → Bool
  isDir : FPath → Bool
  canon : FPath → FPath
  readJson : FPath → Option Json

/-- `Path::exists()`: the path names a regular file or a directory. -/
def FS.existsP (fs : FS) (p : FPath) : Bool :=
  fs.isFile p || fs.isDir p

/-- Split a path-valued string into segments (`PathBuf::from` /
`Path::join` semantics on the segment level): `/` separates segments,
empty and `.` components denote the same directory and are dropped. -/
def segs (s : String) : FPath :=
  (strSplitSlash s).filter (fun t => t ≠ "" && t ≠ ".")

/-- `Path::join` with a string argument: an absolute right operand
replaces the left operand entirely. -/
def joinPathStr (p : FPath) (s : String) : FPath :=
  if strStartsWith s "/" then segs s else p ++ segs s

/-- Lexical normalization of a segment sequence (the `path_clean::clean`
call in `resolver.rs::resolve`): `.`/empty segments vanish, `..` pops the
previous segment (and is dropped at the root, as `clean` does for
absolute paths). -/
def lexCleanAux : List String → FPath → FPath
  | acc, [] => acc
  | acc, seg :: rest =>
    if seg = "" || seg = "." then lexCleanAux acc rest
    else if seg = ".." then lexCleanAux acc.dropLast rest
    else lexCleanAux (acc ++ [seg]) rest

/-- `path_clean::clean` on an already-split absolute path. -/
def lexClean (xs : List String) : FPath := lexCleanAux [] xs

/-- `base.join(request)` followed by `clean`, for a relative request
(`resolver.rs::resolve`, relative branch). A request starting with `/`
replaces the base (Rust `Path::join` semantics). -/
def joinRel (base : FPath) (req : String) : FPath :=
  lexClean ((if strStartsWith req "/" then [] else base) ++ strSplitSlash req)

/-- `constants.rs::RESOLVE_EXTENSIONS`. -/
def RESOLVE_EXTENSIONS : List String :=
  ["ts", "tsx", "mts", "cts", "js", "jsx", "mjs", "cjs"]

/-- `constants.rs::INDEX_FILES`. -/
def INDEX_FILES : List String :=
  ["index.ts", "index.tsx", "index.mts", "index.cts",
   "index.js", "index.jsx", "index.mjs", "index.cjs"]

/-- Append `.ext` to the displayed path
(`format!("{}.{}", p.display(), ext)` appends to the last segment). -/
def withExt : FPath → String → FPath
  | [], ext => ["." ++ ext]
  | [x], ext => [x ++ "." ++ ext]
  | x :: y :: xs, ext => x :: withExt (y :: xs) ext

/-- `candidate.canonicalize().unwrap_or(candidate)` guarded by
`candidate.exists()`. -/
def probe (fs : FS) (p : FPath) : Option FPath :=
  if fs.existsP p then some (fs.canon p) else none

/-- First `some` in a list of options (an early-returning `for` loop). -/
def firstSome {α : Type} : List (Option α) → Option α
  | [] => none
  | some a :: _ => some a
  | none :: rest => firstSome rest

/-- The `for index_file in INDEX_FILES` probe loops of
`resolver.rs::resolve_file`. -/
def indexProbe (fs : FS) (p : FPath) : Option FPath :=
  firstSome (INDEX_FILES.map (fun ix => probe fs (p ++ [ix])))

/-- The `for ext in RESOLVE_EXTENSIONS` probe loop of
`resolver.rs::resolve_file`. -/
def extProbe (fs : FS) (p : FPath) : Option FPath :=
  firstSome (RESOLVE_EXTENSIONS.map (fun e => probe fs (withExt p e)))

/-- `resolver.rs::resolve_file`, transcribed branch for branch. -/
def resolve_file (fs : FS) (p : FPath) : Option FPath :=
  if fs.existsP p && fs.isFile p then some (fs.canon p)
  else
    match (if fs.existsP p && fs.isDir p then indexProbe fs p else none) with
    | some r => some r
    | none =>
      match extProbe fs p with
      | some r => some r
      | none => if !fs.existsP p then indexProbe fs p else none

/-- File resolution as worded by the specification (claim C1): (1) an
existing regular file is returned canonicalized; (2) an existing
directory yields its first existing index file; (3) otherwise the first
existing extension candidate; (4) if the path does not exist as such, the
index probe is retried; (5) otherwise unresolved. -/
def resolve_file_spec (fs : FS) (p : FPath) : Option FPath :=
  if fs.isFile p then some (fs.canon p)
  else
    match (if fs.isDir p then indexProbe fs p else none) with
    | some r => some r
    | none =>
      match extProbe fs p with
      | some r => some r
      | none => if fs.existsP p then none else indexProbe fs p

/-- `request.starts_with("./") || request.starts_with("../") ||
request.starts_with("/")` (`resolver.rs::resolve`). -/
def isRelative (req : String) : Bool :=
  strStartsWith req "./" || strStartsWith req "../" || strStartsWith req "/"

/-- `from_file.parent().unwrap_or(root)`. -/
def dirOf (root : FPath) (f : FPath) : FPath :=
  match f with
  | [] => root
  | _ => f.dropLast

/-- Rust `str::trim_start_matches(pat)`: repeatedly remove the prefix
`pat`. Implemented with a fuel counter bounded by the string length
(each removal of the nonempty pattern strictly shortens the string, so
`s.length` rounds always suffice and the fuel never runs out). -/
def trimStartAux (pat : String) : Nat → String → String
  | 0, s => s
  | fuel + 1, s =>
    if pat ≠ "" && strStartsWith s pat then
      trimStartAux pat fuel (strDrop s (strLen pat))
    else s

/-- Rust `str::trim_start_matches` with a string pattern. -/
def trimStartMatches (s pat : String) : String :=
  trimStartAux pat (strLen s) s

/-- Rust `str::trim_start_matches('/')` (a char pattern): drop all
leading `/` characters. -/
def trimSlashes (s : String) : String :=
  trimStartMatches s "/"

/-- Rust `str::trim_end_matches(pat)`: repeatedly remove the suffix. -/
def trimEndAux (pat : String) : Nat → String → String
  | 0, s => s
  | fuel + 1, s =>
    if pat ≠ "" && strEndsWith s pat then
      trimEndAux pat fuel (strDropRight s (strLen pat))
    else s

/-- Rust `str::trim_end_matches` with a string pattern. -/
def trimEndMatches (s pat : String) : String :=
  trimEndAux pat (strLen s) s

/-- The alias-candidate path: `PathBuf::from(target)` when the remainder
is empty, else `PathBuf::from(target).join(remainder)`
(`resolver.rs::resolve`, alias branch). -/
def aliasCandidate (target remainder : String) : FPath :=
  if remainder = "" then segs target else joinPathStr (segs target) remainder

/-- The alias loop body of `resolver.rs::resolve`: whether `alias`
matches `request`. -/
def aliasMatches (al request : String) : Bool :=
  let pattern := trimEndMatches al "/*"
  if strEndsWith al "/*" then
    strStartsWith request pattern && decide (strLen pattern < strLen request)
  else
    strStartsWith request al

/-- The remainder computed on an alias match
(`request.get(alias_pattern.len()..).unwrap_or("").trim_start_matches('/')`
for a wildcard alias,
`request.trim_start_matches(alias).trim_start_matches('/')` otherwise). -/
def aliasRemainder (al request : String) : String :=
  let pattern := trimEndMatches al "/*"
  if strEndsWith al "/*" then
    trimSlashes (strDrop request (strLen pattern))
  else
    trimSlashes (trimStartMatches request al)

/-- The `for (alias, targets) in tsconfig_paths` loop of
`resolver.rs::resolve`: on a prefix match try each target; the first
target that file-resolves wins; if all targets of a matching alias fail,
continue with the remaining aliases. The iteration order of the Rust
`HashMap` is taken as the list order of the table. -/
def aliasResolve (fs : FS) : List (String × List String) → String → Option FPath
  | [], _ => none
  | (al, targets) :: rest, request =>
    if aliasMatches al request then
      let remainder := aliasRemainder al request
      match firstSome (targets.map
          (fun t => resolve_file fs (aliasCandidate t remainder))) with
      | some r => some r
      | none => aliasResolve fs rest request
    else aliasResolve fs rest request

/-- `resolver.rs::resolve_node_module`: probe
`<dir>/node_modules/<pkg>`, consult `package.json`
(`exports` string form, `exports["."]` string form, conditional
`import`/`require`/`default`, then `module`, then `main`, each passed
through file resolution), and finally fall back to the index files
inside the package directory. -/
def resolve_node_module (fs : FS) (dir : FPath) (pkg : String) : Option FPath :=
  let nm := dir ++ ["node_modules"] ++ segs pkg
  if !fs.existsP nm then none
  else
    let jsonAttempt : Option FPath :=
      match fs.readJson (nm ++ ["package.json"]) with
      | none => none
      | some v =>
        let exportsAttempt : Option FPath :=
          match v.get "exports" with
          | none => none
          | some ex =>
            let strAttempt :=
              match ex.asStr with
              | some s => resolve_file fs (joinPathStr nm (trimStartMatches s "./"))
              | none => none
            match strAttempt with
            | some r => some r
            | none =>
              if ex.isObj then
                match ex.get "." with
                | none => none
                | some dotExport =>
                  let dotStr :=
                    match dotExport.asStr with
                    | some s =>
                      resolve_file fs (joinPathStr nm (trimStartMatches s "./"))
                    | none => none
                  match dotStr with
                  | some r => some r
                  | none =>
                    if dotExport.isObj then
                      firstSome (["import", "require", "default"].map (fun key =>
                        match (dotExport.get key).bind Json.asStr with
                        | some s =>
                          resolve_file fs (joinPathStr nm (trimStartMatches s "./"))
                        | none => none))
                    else none
              else none
        match exportsAttempt with
        | some r => some r
        | none =>
          match (v.get "module").bind Json.asStr with
          | some s =>
            match resolve_file fs (joinPathStr nm s) with
            | some r => some r
            | none =>
              match (v.get "main").bind Json.asStr with
              | some s' => resolve_file fs (joinPathStr nm s')
              | none => none
          | none =>
            match (v.get "main").bind Json.asStr with
            | some s' => resolve_file fs (joinPathStr nm s')
            | none => none
    match jsonAttempt with
    | some r => some r
    | none =>
      firstSome (INDEX_FILES.map (fun ix => probe fs (nm ++ [ix])))

/-- `resolver.rs::resolve_node_module_from_dir`: walk upward from
`start_dir`, probing each directory, stopping after the workspace root
(or at the filesystem root, whose parent does not exist). -/
def resolve_node_module_from_dir (fs : FS) (startDir : FPath) (pkg : String)
    (root : FPath) : Option FPath :=
  match resolve_node_module fs startDir pkg with
  | some r => some r
  | none =>
    if startDir = root then none
    else
      if h : startDir = [] then none
      else resolve_node_module_from_dir fs startDir.dropLast pkg root
termination_by startDir.length
decreasing_by
  have hl : 0 < startDir.length := List.length_pos.mpr h
  simp only [List.length_dropLast]
  omega

/-- The pure resolution function computed by `resolver.rs::resolve` on a
cache miss (the function is pure in the filesystem snapshot `fs`; the
cache layer is modelled separately). -/
def resolveCore (fs : FS) (root : FPath) (tbl : List (String × List String))
    (fromFile : FPath) (req : String) : Option FPath :=
  if isRelative req then
    resolve_file fs (joinRel (dirOf root fromFile) req)
  else
    match aliasResolve fs tbl req with
    | some r => some r
    | none => resolve_node_module_from_dir fs (dirOf root fromFile) req root

/-!
The import-graph algorithms (`graph.rs::reachable_modules`,
`depth.rs::compute_depth_internal`).  They consume the services of
`oxiclean_core` — `imports_for` and `resolve` — as black boxes, so they
are embedded generically over a node type `V` (a finite import graph, as
in the claims) with
* `imports : V → Except Unit (List String)` for `imports_for` (the
  `anyhow::Error` payload is irrelevant to control flow and becomes
  `Unit`), and
* `resolveF : V → String → Option V` for `resolve`, whose Rust
  counterpart is `Result`-typed but never returns `Err` (its body has no
  fallible operation), so the `Err` arms of the callers are dead code and
  the total `Option` signature is exact.
-/

section Graph

variable {V : Type}

/-- The `while let Some(cur) = stack.pop()` loop of
`graph.rs::reachable_modules`, with the top of the `Vec` stack at the
head of the list: pop a node, skip it if visited, else mark it visited
and push its not-yet-visited resolved imports (the last-pushed spec ends
on top, hence the `reverse`). -/
def reachAux [Fintype V] [DecidableEq V] (g : V → List V)
    (stack : List V) (visited : Finset V) : Finset V :=
  match stack with
  | [] => visited
  | cur :: rest =>
    if cur ∈ visited then reachAux g rest visited
    else
      reachAux g
        (((g cur).filter (fun n => n ∉ insert cur visited)).reverse ++ rest)
        (insert cur visited)
termination_by (Fintype.card V - visited.card, stack.length)
decreasing_by
  · exact Prod.Lex.right _ (by simp only [List.length_cons]; omega)
  · apply Prod.Lex.left
    have h2 := Finset.card_le_univ (insert cur visited)
    have h3 : (insert cur visited).card = visited.card + 1 :=
      Finset.card_insert_of_not_mem (by assumption)
    simp [Finset.card_univ] at h2
    omega

/-- The resolved direct imports of a node, in specifier order:
`imports_for(..).unwrap_or_default()` followed by the per-spec
`resolve` whose `None`s are skipped (`graph.rs::reachable_modules`,
lines 35–45). -/
def neighborsOf (imports : V → Except Unit (List String))
    (resolveF : V → String → Option V) (v : V) : List V :=
  (((imports v).toOption.getD []).filterMap (resolveF v))

/-- `graph.rs::reachable_modules` (the traversal; the `ReachableCache`
read/write wrapping it is dropped as no claim concerns it). -/
def reachable_modules [Fintype V] [DecidableEq V]
    (imports : V → Except Unit (List String))
    (resolveF : V → String → Option V) (start : V) : Finset V :=
  reachAux (neighborsOf imports resolveF) [start] ∅

/-- A memoization table (`DashMap<PathBuf, usize>` as functional state). -/
def Memo (V : Type) := V → Option Nat

/-- A keyed insert into the memo table. -/
def insertMemo [DecidableEq V] (m : Memo V) (k : V) (d : Nat) : Memo V :=
  fun v => if v = k then some d else m v

/-- The always-empty memo table a fresh `DashMap::new()` denotes. -/
def emptyMemo : Memo V := fun _ => none

mutual
/-- `depth.rs::compute_depth_internal`, transcribed branch for branch:
memo hit; cycle guard (`visiting.contains(start)` returns 0 without
touching the cache); failed `imports_for` (memoize 0); no imports
(memoize 0); otherwise fold over the specifiers and memoize the result.
The Rust `visiting` set is restored (`visiting.remove(start)`) before
every return, so the set each sibling call observes is exactly the
ancestor set passed downward here. -/
def compute_depth_internal [Fintype V] [DecidableEq V]
    (imports : V → Except Unit (List String))
    (resolveF : V → String → Option V)
    (start : V) (cache : Memo V) (visiting : Finset V) : Nat × Memo V :=
  match cache start with
  | some d => (d, cache)
  | none =>
    if start ∈ visiting then (0, cache)
    else
      match imports start with
      | .error _ => (0, insertMemo cache start 0)
      | .ok specs =>
        if specs.isEmpty then (0, insertMemo cache start 0)
        else
          let res := depth_children imports resolveF start specs 0 cache
            (insert start visiting)
          (res.1, insertMemo res.2 start res.1)
termination_by (Fintype.card V - visiting.card, 0, 0)
decreasing_by
  apply Prod.Lex.left
  have h2 := Finset.card_le_univ (insert start visiting)
  have h3 : (insert start visiting).card = visiting.card + 1 :=
    Finset.card_insert_of_not_mem (by assumption)
  simp [Finset.card_univ] at h2
  omega

/-- The `for spec in specs` loop of `depth.rs::compute_depth_internal`:
unresolved specifiers are skipped, resolved children are recursed into,
and `max_depth` is raised to `1 + child_depth` when that is larger. -/
def depth_children [Fintype V] [DecidableEq V]
    (imports : V → Except Unit (List String))
    (resolveF : V → String → Option V)
    (cur : V) (specs : List String) (maxDepth : Nat) (cache : Memo V)
    (visiting : Finset V) : Nat × Memo V :=
  match specs with
  | [] => (maxDepth, cache)
  | s :: rest =>
    match resolveF cur s with
    | none => depth_children imports resolveF cur rest maxDepth cache visiting
    | some child =>
      let r := compute_depth_internal imports resolveF child cache visiting
      depth_children imports resolveF cur rest
        (if 1 + r.1 > maxDepth then 1 + r.1 else maxDepth) r.2 visiting
termination_by (Fintype.card V - visiting.card, 1, specs.length)
decreasing_by
  · exact Prod.Lex.right _ (Prod.Lex.right _ (by simp only [List.length_cons]; omega))
  · exact Prod.Lex.right _ (Prod.Lex.left _ _ (by omega))
  · exact Prod.Lex.right _ (Prod.Lex.right _ (by simp only [List.length_cons]; omega))
end

/-- `depth.rs::compute_depth`: run the internal computation with a fresh
`visiting` set. -/
def compute_depth [Fintype V] [DecidableEq V]
    (imports : V → Except Unit (List String))
    (resolveF : V → String → Option V) (start : V) (cache : Memo V) :
    Nat × Memo V :=
  compute_depth_internal imports resolveF start cache ∅

end Graph

/-!
The specifier extractor (`parser.rs::imports_for` and
`parser.rs::extract_require_from_expression`).  The external syntax
parser (oxc) is a collaborator: given file text and the dialect flags
derived from the extension, it always returns a statement sequence
(`ParserReturn { program, .. }` is infallible; parse errors only populate
a diagnostics list the code ignores).  It is therefore modelled as an
arbitrary total function `FPath → String → List Stmt`.
-/

/-- `types.rs::SpecKind`. -/
inductive SpecKind where
  | static : SpecKind
  | dynamic : SpecKind
deriving DecidableEq

/-- `types.rs::Specifier`. -/
structure Specifier where
  request : String
  kind : SpecKind
deriving DecidableEq

/-- `oxc ImportDeclarationSpecifier`: a named import together with its
`import_kind.is_type()` flag, a default import, or a namespace import. -/
inductive ImportDeclarationSpecifier where
  | importSpecifier : Bool → ImportDeclarationSpecifier
  | importDefaultSpecifier : ImportDeclarationSpecifier
  | importNamespaceSpecifier : ImportDeclarationSpecifier
deriving DecidableEq

/-- An `oxc ImportDeclaration` at the granularity `parser.rs` inspects:
the declaration-level `import_kind.is_type()` flag, the optional
specifier list (`None` for a bare side-effect import), and the source
string. -/
structure ImportDecl where
  importKindIsType : Bool
  specifiers : Option (List ImportDeclarationSpecifier)
  source : String

/-- The expression shapes `parser.rs::extract_require_from_expression`
dispatches on; every other variant is `otherExpr`, a leaf.  Call
arguments, array elements and object properties are `Option Expr`
(`as_expression`/`as_property` return `None` on spread and elision). -/
inductive Expr where
  | call : Expr → List (Option Expr) → Expr
  | ident : String → Expr
  | strLit : String → Expr
  | importExpr : Expr → Expr
  | array : List (Option Expr) → Expr
  | object : List (Option Expr) → Expr
  | cond : Expr → Expr → Expr → Expr
  | assign : Expr → Expr
  | paren : Expr → Expr
  | otherExpr : Expr

/-- The statement shapes `parser.rs::imports_for` dispatches on. -/
inductive Stmt where
  | importDeclaration : ImportDecl → Stmt
  | expressionStatement : Expr → Stmt
  | variableDeclaration : List (Option Expr) → Stmt
  | otherStmt : Stmt

/-- The `require(..)` head check of
`parser.rs::extract_require_from_expression`: callee is the identifier
`require`, the argument list is nonempty, and the first argument is a
string-literal expression. -/
def requireHead : Expr → List (Option Expr) → List Specifier
  | .ident n, some (.strLit s) :: _ =>
    if n = "require" then [⟨s, .static⟩] else []
  | _, _ => []

mutual
/-- `parser.rs::extract_require_from_expression`, one arm per variant:
a `require` call contributes its first string-literal argument, then the
arguments and the callee are searched; `import(<string literal>)`
contributes a dynamic specifier; arrays, object property values, the
three conditional branches, assignment right-hand sides and
parenthesized expressions are searched; other variants are leaves. -/
def extract_require : Expr → List Specifier
  | .call callee args =>
    requireHead callee args ++ extract_opt_list args ++ extract_require callee
  | .importExpr source =>
    match source with
    | .strLit s => [⟨s, .dynamic⟩]
    | _ => []
  | .array elems => extract_opt_list elems
  | .object props => extract_opt_list props
  | .cond t c a => extract_require t ++ extract_require c ++ extract_require a
  | .assign rhs => extract_require rhs
  | .paren inner => extract_require inner
  | _ => []

/-- Search a list of optional sub-expressions in order (spreads and
elisions contribute nothing). -/
def extract_opt_list : List (Option Expr) → List Specifier
  | [] => []
  | none :: rest => extract_opt_list rest
  | some e :: rest => extract_require e ++ extract_opt_list rest
end

/-- Whether one `oxc` import specifier is a runtime (non-type-only)
import: the `any` predicate of `parser.rs::imports_for` lines 46–50. -/
def specIsRuntime : ImportDeclarationSpecifier → Bool
  | .importSpecifier typeOnly => !typeOnly
  | .importDefaultSpecifier => true
  | .importNamespaceSpecifier => true

/-- The specifiers one `ImportDeclaration` statement contributes
(`parser.rs::imports_for`, lines 36–61): none when the declaration is
type-only; one static specifier for the source when there is no
specifier list (side-effect import) or some specifier is a runtime
import; none otherwise. -/
def importDeclSpecs (d : ImportDecl) : List Specifier :=
  if d.importKindIsType then []
  else
    let hasRuntimeImport :=
      match d.specifiers with
      | some specifiers => specifiers.any specIsRuntime
      | none => true
    if hasRuntimeImport then [⟨d.source, .static⟩] else []

/-- The specifiers one statement contributes
(`parser.rs::imports_for`, statement loop). -/
def stmtSpecs : Stmt → List Specifier
  | .importDeclaration d => importDeclSpecs d
  | .expressionStatement e => extract_require e
  | .variableDeclaration inits =>
    inits.flatMap fun i =>
      match i with
      | some init => extract_require init
      | none => []
  | .otherStmt => []

/-- The full statement loop of `parser.rs::imports_for`, in encounter
order. -/
def imports_of_program (stmts : List Stmt) : List Specifier :=
  stmts.flatMap stmtSpecs

/-- `parser.rs::imports_for`: cache hit returns the cached list;
otherwise the file is read (`fs::read_to_string`, the only fallible
operation — modelled by `readF` returning `none` exactly when the read
fails), parsed by the total collaborator parser (dialect chosen from the
file, `source_type_for`), walked, and the result is cached and
returned.  The cache is threaded functionally. -/
def imports_for (readF : FPath → Option String) (parseF : FPath → String → List Stmt)
    (cache : FPath → Option (List Specifier)) (file : FPath) :
    Except String (List Specifier) × (FPath → Option (List Specifier)) :=
  match cache file with
  | some v => (.ok v, cache)
  | none =>
    match readF file with
    | none => (.error "Failed to read", cache)
    | some src =>
      let specs := imports_of_program (parseF file src)
      (.ok specs, fun p => if p = file then some specs else cache p)

/-!
Concurrency model for the resolver cache (claim C9).  Many tasks call
`resolver.rs::resolve` with the same `(importing file, request)` key over
a fixed filesystem and alias table.  Each call performs, in order, the
atomic `DashMap` read (line 21), the pure computation of the body — a
pure function of the fixed filesystem snapshot, equal to `resolveCore` —
and the atomic `DashMap` insert (line 95).  A task is therefore a small
program with three phases, and the system is an interleaving of task
steps over the shared cache entry for the key.
-/

/-- One task's progress through `resolve` for the fixed key: not yet
executed, computed the pure result but not yet inserted, or returned. -/
inductive TaskPhase where
  | ready : TaskPhase
  | computed : Option FPath → TaskPhase
  | finished : Option FPath → TaskPhase

/-- The shared state: the `ResolveCache` entry for the key (`none` when
the key is absent) and the phase of every task. -/
abbrev ResolveSystem := Option (Option FPath) × List TaskPhase

/-- Interleaved execution: a ready task reads a present cache entry and
returns it (cache hit, lines 21–24); a ready task reads an absent entry
and computes the pure resolution `pureR` (lines 27–93); a task that has
computed inserts its value, overwriting the entry, and returns it
(lines 95–99). -/
inductive ResolveStep (pureR : Option FPath) : ResolveSystem → ResolveSystem → Prop where
  | hit (c : Option FPath) (ts : List TaskPhase) (i : Nat)
      (hi : ts[i]? = some .ready) :
      ResolveStep pureR (some c, ts) (some c, ts.set i (.finished c))
  | compute (ts : List TaskPhase) (i : Nat) (hi : ts[i]? = some .ready) :
      ResolveStep pureR (none, ts) (none, ts.set i (.computed pureR))
  | insert (cache : Option (Option FPath)) (ts : List TaskPhase) (i : Nat)
      (r : Option FPath) (hi : ts[i]? = some (.computed r)) :
      ResolveStep pureR (cache, ts) (some r, ts.set i (.finished r))

/-- The system invariant: the cache entry is absent or holds the pure
result; every computed or returned value is the pure result; and once
any task has returned, the cache entry is present. -/
def ResolveInv (pureR : Option FPath) (s : ResolveSystem) : Prop :=
  (s.1 = none ∨ s.1 = some pureR)
  ∧ (∀ r, TaskPhase.computed r ∈ s.2 → r = pureR)
  ∧ (∀ r, TaskPhase.finished r ∈ s.2 → r = pureR)
  ∧ ((∃ r, TaskPhase.finished r ∈ s.2) → s.1 = some pureR)

/-- Each interleaved step preserves the invariant. -/
theorem ResolveStep.inv {pureR : Option FPath} {s s' : ResolveSystem}
    (h : ResolveStep pureR s s') (hs : ResolveInv pureR s) : ResolveInv pureR s' := by
  obtain ⟨h1, h2, h3, h4⟩ := hs
  cases h with
  | hit c ts i hi =>
    have hc : c = pureR := by
      rcases h1 with h1 | h1
      · exact absurd h1 (by simp)
      · exact Option.some.inj h1
    subst hc
    refine ⟨Or.inr rfl, ?_, ?_, fun _ => rfl⟩
    · intro r hr
      rcases List.mem_or_eq_of_mem_set hr with hr' | hr'
      · exact h2 r hr'
      · exact absurd hr' (by simp)
    · intro r hr
      rcases List.mem_or_eq_of_mem_set hr with hr' | hr'
      · exact h3 r hr'
      · exact (TaskPhase.finished.inj hr').symm ▸ rfl
  | compute ts i hi =>
    refine ⟨Or.inl rfl, ?_, ?_, ?_⟩
    · intro r hr
      rcases List.mem_or_eq_of_mem_set hr with hr' | hr'
      · exact h2 r hr'
      · exact TaskPhase.computed.inj hr'
    · intro r hr
      rcases List.mem_or_eq_of_mem_set hr with hr' | hr'
      · exact h3 r hr'
      · exact absurd hr' (by simp)
    · rintro ⟨r, hr⟩
      rcases List.mem_or_eq_of_mem_set hr with hr' | hr'
      · exact absurd (h4 ⟨r, hr'⟩) (by simp)
      · exact absurd hr' (by simp)
  | insert cache ts i r hi =>
    have hr : r = pureR := h2 r (List.getElem?_mem hi)
    subst hr
    refine ⟨Or.inr rfl, ?_, ?_, fun _ => rfl⟩
    · intro r' hr'
      rcases List.mem_or_eq_of_mem_set hr' with hr'' | hr''
      · exact h2 r' hr''
      · exact absurd hr'' (by simp)
    · intro r' hr'
      rcases List.mem_or_eq_of_mem_set hr' with hr'' | hr''
      · exact h3 r' hr''
      · exact (TaskPhase.finished.inj hr'').symm ▸ rfl

/-- The invariant holds along every interleaved run. -/
theorem resolveRun_inv (pureR : Option FPath) (s s' : ResolveSystem)
    (h : Relation.ReflTransGen (ResolveStep pureR) s s')
    (hs : ResolveInv pureR s) : ResolveInv pureR s' := by
  induction h with
  | refl => exact hs
  | tail _ hbc ih => exact hbc.inv ih

/-- The number of tasks never changes along a run. -/
theorem resolveRun_length (pureR : Option FPath) (s s' : ResolveSystem)
    (h : Relation.ReflTransGen (ResolveStep pureR) s s') :
    s'.2.length = s.2.length := by
  induction h with
  | refl => rfl
  | tail _ hbc ih =>
    rw [← ih]
    cases hbc <;> simp

/-!
## Claims
-/

/-- **C1**: for every relative request (one starting with `./`, `../`,
or `/`), `resolve` joins the importing file's directory with the
request, lexically normalizes, and applies file resolution, which probes
in exactly the claimed order: existing regular file (canonicalized);
existing directory's first existing index file in the order
`index.ts, index.tsx, index.mts, index.cts, index.js, index.jsx,
index.mjs, index.cjs`; first existing candidate with an extension
appended in the order `ts, tsx, mts, cts, js, jsx, mjs, cjs`; one
retried index probe when the path does not exist as such; otherwise
unresolved. -/
theorem C1_relative_resolution_order :
    (∀ (fs : FS) (root : FPath) (tbl : List (String × List String))
        (fromFile : FPath) (req : String), isRelative req = true →
        resolveCore fs root tbl fromFile req
          = resolve_file fs (joinRel (dirOf root fromFile) req))
    ∧ (∀ (fs : FS) (p : FPath), resolve_file fs p = resolve_file_spec fs p) := by
  constructor
  · intro fs root tbl fromFile req h
    simp [resolveCore, h]
  · intro fs p
    by_cases hf : fs.isFile p <;> by_cases hd : fs.isDir p <;>
      simp [resolve_file, resolve_file_spec, FS.existsP, hf, hd]

/-- A small concrete filesystem used by the witnesses: a source tree
with `/src/file.js`, a sibling `/src/utils.ts` and the directory
`/src` itself. -/
def fsW : FS where
  isFile := fun p => p == ["src", "file.js"] || p == ["src", "utils.ts"]
  isDir := fun p => p == ["src"]
  canon := id
  readJson := fun _ => none

/-- Witness for C1: the theorem applied at the request `./utils` from
`/src/file.js`. -/
theorem C1_witness :
    isRelative "./utils" = true
    ∧ resolveCore fsW [] [] ["src", "file.js"] "./utils"
        = resolve_file fsW (joinRel (dirOf [] ["src", "file.js"]) "./utils")
    ∧ resolve_file fsW ["src", "utils"] = resolve_file_spec fsW ["src", "utils"] :=
  ⟨by decide,
   C1_relative_resolution_order.1 fsW [] [] ["src", "file.js"] "./utils" (by decide),
   C1_relative_resolution_order.2 fsW ["src", "utils"]⟩

/-- **C7**: a type-only import declaration contributes zero specifiers;
a declaration with no bindings, or with at least one default, namespace,
or non-type-only named specifier, contributes exactly one specifier for
its source; a declaration whose every named specifier is type-only, with
no default/namespace specifier, contributes none. -/
theorem C7_import_decl_specifiers :
    ∀ d : ImportDecl,
      (d.importKindIsType = true → importDeclSpecs d = [])
      ∧ (d.importKindIsType = false →
          (d.specifiers = none
            ∨ ∃ l, d.specifiers = some l ∧ ∃ sp ∈ l, specIsRuntime sp = true) →
          importDeclSpecs d = [⟨d.source, .static⟩])
      ∧ (d.importKindIsType = false →
          (∃ l, d.specifiers = some l
            ∧ ∀ sp ∈ l, sp = .importSpecifier true) →
          importDeclSpecs d = []) := by
  intro d
  refine ⟨fun h => by simp [importDeclSpecs, h], ?_, ?_⟩
  · intro hty hcase
    rcases hcase with hnone | ⟨l, hl, sp, hsp, hrt⟩
    · simp [importDeclSpecs, hty, hnone]
    · have hany : l.any specIsRuntime = true := List.any_eq_true.mpr ⟨sp, hsp, hrt⟩
      simp [importDeclSpecs, hty, hl, hany]
  · rintro hty ⟨l, hl, hall⟩
    have hany : l.any specIsRuntime = false := by
      rw [List.any_eq_false]
      intro sp hsp
      rw [hall sp hsp]
      simp [specIsRuntime]
    simp [importDeclSpecs, hty, hl, hany]

/-- Witness for C7: `import type { Foo } from './x'` yields nothing,
`import { type Foo, bar } from './x'` yields one specifier for `./x`,
and `import { type Foo } from './x'` yields nothing. -/
theorem C7_witness :
    importDeclSpecs ⟨true, some [.importSpecifier true], "./x"⟩ = []
    ∧ importDeclSpecs ⟨false, some [.importSpecifier true, .importSpecifier false], "./x"⟩
        = [⟨"./x", .static⟩]
    ∧ importDeclSpecs ⟨false, some [.importSpecifier true], "./x"⟩ = [] :=
  ⟨(C7_import_decl_specifiers _).1 rfl,
   (C7_import_decl_specifiers _).2.1 rfl
     (Or.inr ⟨_, rfl, .importSpecifier false, by decide, rfl⟩),
   (C7_import_decl_specifiers _).2.2 rfl ⟨_, rfl, by decide⟩⟩

/-- **C10**: on a first query of a file (no cache entry yet),
`imports_for` fails exactly when the file cannot be read; every readable
file — the parser being total even on syntactically invalid text —
yields `Ok` with the extracted (possibly empty) list, and the
`ImportCache` then holds that entry for the file. -/
theorem C10_read_error_iff :
    ∀ (readF : FPath → Option String) (parseF : FPath → String → List Stmt)
      (cache : FPath → Option (List Specifier)) (file : FPath),
      cache file = none →
      ((∃ msg, (imports_for readF parseF cache file).1 = Except.error msg)
          ↔ readF file = none)
      ∧ ∀ src, readF file = some src →
          imports_for readF parseF cache file
            = (Except.ok (imports_of_program (parseF file src)),
               fun p => if p = file then some (imports_of_program (parseF file src))
                        else cache p) := by
  intro readF parseF cache file hc
  constructor
  · cases hr : readF file with
    | none => simp [imports_for, hc, hr]
    | some src => simp [imports_for, hc, hr]
  · intro src hr
    simp [imports_for, hc, hr]

/-- Witness for C10: a readable file holding text that is not valid
JavaScript still yields `Ok []` and populates the cache (the collaborator
parser returns an empty program for it), while an unreadable file yields
an error. -/
theorem C10_witness :
    ((∃ msg,
        (imports_for (fun p => if p = ["src", "good.js"] then some "@@not js@@" else none)
          (fun _ _ => []) (fun _ => none) ["src", "bad.js"]).1 = Except.error msg)
      ↔ (fun p => if p = ["src", "good.js"] then some "@@not js@@" else none) ["src", "bad.js"]
          = (none : Option String))
    ∧ imports_for (fun p => if p = ["src", "good.js"] then some "@@not js@@" else none)
        (fun _ _ => []) (fun _ => none) ["src", "good.js"]
        = (Except.ok (imports_of_program []),
           fun p => if p = ["src", "good.js"] then some (imports_of_program []) else none) :=
  ⟨(C10_read_error_iff _ _ _ ["src", "bad.js"] rfl).1,
   (C10_read_error_iff (fun p => if p = ["src", "good.js"] then some "@@not js@@" else none)
      (fun _ _ => []) (fun _ => none) ["src", "good.js"] rfl).2 "@@not js@@" (by decide)⟩

/-!
The concrete cyclic import graph `entry → A → B → C → A` of the claims,
with `entry, A, B, C` as `0, 1, 2, 3 : Fin 4`.
-/

/-- Imports of the cyclic graph: every node has one import specifier. -/
def importsCycle : Fin 4 → Except Unit (List String)
  | 0 => .ok ["./a"]
  | 1 => .ok ["./b"]
  | 2 => .ok ["./c"]
  | 3 => .ok ["./a"]

/-- Resolution for the cyclic graph: `entry → A`, `A → B`, `B → C`,
`C → A`. -/
def resolveCycle : Fin 4 → String → Option (Fin 4)
  | 0, "./a" => some 1
  | 1, "./b" => some 2
  | 2, "./c" => some 3
  | 3, "./a" => some 1
  | _, _ => none

/-- `(a ++ b).data` unfolds to the concatenation of the character
lists. -/
theorem strData_append (a b : String) : (a ++ b).data = a.data ++ b.data := rfl

/-- The remainder as the claim words it: the matched prefix removed
*once* (for a non-wildcard alias, the alias string removed once by
length), then leading `/` trimmed.  This is the claim-side counterpart
of `aliasRemainder`; the code agrees with it for wildcard aliases but
removes the non-wildcard alias prefix repeatedly
(`str::trim_start_matches`). -/
def aliasRemainderOnce (al request : String) : String :=
  let pattern := trimEndMatches al "/*"
  if strEndsWith al "/*" then
    trimSlashes (strDrop request (strLen pattern))
  else
    trimSlashes (strDrop request (strLen al))

/-- The alias loop as the claim words it, differing from `aliasResolve`
only in using the removed-once remainder. -/
def aliasResolveOnce (fs : FS) : List (String × List String) → String → Option FPath
  | [], _ => none
  | (al, targets) :: rest, request =>
    if aliasMatches al request then
      let remainder := aliasRemainderOnce al request
      match firstSome (targets.map
          (fun t => resolve_file fs (aliasCandidate t remainder))) with
      | some r => some r
      | none => aliasResolveOnce fs rest request
    else aliasResolveOnce fs rest request

/-- A filesystem with the single regular file `/base/@x/y`. -/
def fsC4 : FS where
  isFile := fun p => p == ["base", "@x", "y"]
  isDir := fun _ => false
  canon := id
  readJson := fun _ => none

/-- **C4, counterexample**: for the non-wildcard alias `@x` with
candidate base `base` and the request `@x@x/y`, the code removes the
alias prefix *repeatedly* (`trim_start_matches`), yielding remainder
`y` and the failing candidate `/base/y`, while the claimed
removed-*once* remainder `@x/y` would resolve to the existing file
`/base/@x/y`; so the claim's description of the remainder is false on
this input. -/
theorem C4_counterexample :
    aliasResolve fsC4 [("@x", ["base"])] "@x@x/y" = none
    ∧ aliasResolveOnce fsC4 [("@x", ["base"])] "@x@x/y" = some ["base", "@x", "y"] := by
  constructor <;> decide

/-- **C4, amended**: a wildcard alias matches exactly the strict
extensions of its pattern (the alias minus `/*`); a non-wildcard alias
matches exactly the requests it prefixes, the request equal to the alias
included; on a match the remainder is the request with the matched
pattern removed once for a wildcard alias, but with the alias prefix
removed **repeatedly** (as often as it remains a prefix) for a
non-wildcard alias, followed by trimming all leading `/`; each candidate
base path is tried by joining the remainder (or unchanged when the
remainder is empty) through file resolution, the first success winning,
and a matching alias whose candidates all fail falls through to the
remaining aliases. -/
theorem C4_amended_alias_matching :
    (∀ al req, strEndsWith al "/*" = true →
      (aliasMatches al req = true ↔
        ∃ suf, suf ≠ "" ∧ req = trimEndMatches al "/*" ++ suf))
    ∧ (∀ al req, strEndsWith al "/*" = false →
      (aliasMatches al req = true ↔ ∃ suf, req = al ++ suf))
    ∧ (∀ al suf, strEndsWith al "/*" = true →
      aliasRemainder al (trimEndMatches al "/*" ++ suf) = trimSlashes suf)
    ∧ (∀ al req, strEndsWith al "/*" = false →
      aliasRemainder al req = trimSlashes (trimStartMatches req al))
    ∧ (∀ (fs : FS) (al : String) (targets : List String)
        (rest : List (String × List String)) (req : String),
        aliasMatches al req = true →
        aliasResolve fs ((al, targets) :: rest) req
          = match firstSome (targets.map
              (fun t => resolve_file fs (aliasCandidate t (aliasRemainder al req)))) with
            | some r => some r
            | none => aliasResolve fs rest req)
    ∧ (∀ (fs : FS) (al : String) (targets : List String)
        (rest : List (String × List String)) (req : String),
        aliasMatches al req = false →
        aliasResolve fs ((al, targets) :: rest) req = aliasResolve fs rest req)
    ∧ (∀ t : String, aliasCandidate t "" = segs t)
    ∧ (∀ t rem : String, rem ≠ "" → strStartsWith rem "/" = false →
      aliasCandidate t rem = segs t ++ segs rem) := by
  refine ⟨?_, ?_, ?_, ?_, ?_, ?_, ?_, ?_⟩
  · intro al req h
    simp only [aliasMatches, h, if_true, Bool.and_eq_true, decide_eq_true_eq]
    constructor
    · rintro ⟨hpre, hlen⟩
      obtain ⟨t, ht⟩ := List.isPrefixOf_iff_prefix.mp hpre
      refine ⟨⟨t⟩, ?_, ?_⟩
      · intro ht0
        have ht1 : t = [] := congrArg String.data ht0
        rw [ht1, List.append_nil] at ht
        simp only [strLen, ht] at hlen
        omega
      · apply String.ext
        rw [strData_append]
        exact ht.symm
    · rintro ⟨suf, hsuf, rfl⟩
      constructor
      · apply List.isPrefixOf_iff_prefix.mpr
        exact ⟨suf.data, by rw [strData_append]⟩
      · have : suf.data ≠ [] := fun hh => hsuf (String.ext hh)
        have hpos : 0 < suf.data.length := List.length_pos.mpr this
        simp only [strLen, strData_append, List.length_append]
        omega
  · intro al req h
    simp only [aliasMatches, h, if_false]
    constructor
    · intro hpre
      obtain ⟨t, ht⟩ := List.isPrefixOf_iff_prefix.mp hpre
      refine ⟨⟨t⟩, ?_⟩
      apply String.ext
      rw [strData_append]
      exact ht.symm
    · rintro ⟨suf, rfl⟩
      apply List.isPrefixOf_iff_prefix.mpr
      exact ⟨suf.data, by rw [strData_append]⟩
  · intro al suf h
    simp only [aliasRemainder, h, if_true]
    congr 1
    apply String.ext
    simp only [strDrop, strLen, strData_append]
    exact List.drop_left _ _
  · intro al req h
    simp [aliasRemainder, h]
  · intro fs al targets rest req h
    simp [aliasResolve, h]
  · intro fs al targets rest req h
    simp [aliasResolve, h]
  · intro t
    simp [aliasCandidate]
  · intro t rem h1 h2
    simp [aliasCandidate, joinPathStr, h1, h2]

/-- Witness for the amended C4: each part applied at concrete aliases
and requests (`@c/*` with `@c/Button`; the repeated removal on `@x`
with `@x@x/y` over the `/base/@x/y` filesystem). -/
theorem C4_amended_witness :
    (aliasMatches "@c/*" "@c/Button" = true ↔
      ∃ suf, suf ≠ "" ∧ "@c/Button" = trimEndMatches "@c/*" "/*" ++ suf)
    ∧ (aliasMatches "@x" "@x@x/y" = true ↔ ∃ suf, "@x@x/y" = "@x" ++ suf)
    ∧ aliasRemainder "@c/*" (trimEndMatches "@c/*" "/*" ++ "/Button")
        = trimSlashes "/Button"
    ∧ aliasRemainder "@x" "@x@x/y" = trimSlashes (trimStartMatches "@x@x/y" "@x")
    ∧ aliasResolve fsC4 [("@x", ["base"])] "@x@x/y"
        = (match firstSome (["base"].map
            (fun t => resolve_file fsC4 (aliasCandidate t (aliasRemainder "@x" "@x@x/y")))) with
           | some r => some r
           | none => aliasResolve fsC4 [] "@x@x/y")
    ∧ aliasResolve fsC4 [("@y", ["base"])] "@x@x/y" = aliasResolve fsC4 [] "@x@x/y"
    ∧ aliasCandidate "base" "" = segs "base"
    ∧ aliasCandidate "base" "y" = segs "base" ++ segs "y" :=
  ⟨C4_amended_alias_matching.1 "@c/*" "@c/Button" (by decide),
   C4_amended_alias_matching.2.1 "@x" "@x@x/y" (by decide),
   C4_amended_alias_matching.2.2.1 "@c/*" "/Button" (by decide),
   C4_amended_alias_matching.2.2.2.1 "@x" "@x@x/y" (by decide),
   C4_amended_alias_matching.2.2.2.2.1 fsC4 "@x" ["base"] [] "@x@x/y" (by decide),
   C4_amended_alias_matching.2.2.2.2.2.1 fsC4 "@y" ["base"] [] "@x@x/y" (by decide),
   C4_amended_alias_matching.2.2.2.2.2.2.1 "base",
   C4_amended_alias_matching.2.2.2.2.2.2.2 "base" "y" (by decide) (by decide)⟩

/-- The chain of directories the upward `node_modules` walk inspects,
as the specification words it: the importing file's directory, then each
successive parent, up to and including the workspace root (or the
filesystem root, which has no parent). -/
def upChain (root : FPath) (startDir : FPath) : List FPath :=
  if startDir = root then [startDir]
  else if h : startDir = [] then [startDir]
  else startDir :: upChain root startDir.dropLast
termination_by startDir.length
decreasing_by
  have hl : 0 < startDir.length := List.length_pos.mpr h
  simp only [List.length_dropLast]
  omega

/-- Peeling one candidate off an early-returning probe sequence. -/
theorem firstSome_cons {α : Type} (o : Option α) (l : List (Option α)) :
    firstSome (o :: l) = match o with | some a => some a | none => firstSome l := by
  cases o <;> rfl

/-- The upward walk equals the first success over the inspected
directory chain. -/
theorem rnm_from_dir_eq_walk (fs : FS) (pkg : String) (root : FPath) :
    ∀ startDir : FPath,
      resolve_node_module_from_dir fs startDir pkg root
        = firstSome ((upChain root startDir).map
            fun d => resolve_node_module fs d pkg) := by
  intro startDir
  induction startDir using upChain.induct root with
  | case1 =>
    rw [resolve_node_module_from_dir, upChain]
    simp only [if_pos rfl, List.map_cons, List.map_nil, firstSome_cons]
    cases hres : resolve_node_module fs root pkg <;> simp [hres, firstSome]
  | case2 h =>
    rw [resolve_node_module_from_dir, upChain]
    simp only [List.map_cons, List.map_nil, firstSome_cons]
    cases hres : resolve_node_module fs [] pkg <;> simp [hres, firstSome]
  | case3 startDir h h2 ih =>
    rw [resolve_node_module_from_dir, upChain]
    simp only [h, if_false, h2, dite_false, List.map_cons, firstSome_cons]
    cases hres : resolve_node_module fs startDir pkg <;> simp [hres, ih]

/-- When the start directory lies under the workspace root, the
inspected chain contains the root and never leaves the subtree under
the root. -/
theorem upChain_bounded (root : FPath) :
    ∀ startDir : FPath, root <+: startDir →
      root ∈ upChain root startDir ∧ ∀ d ∈ upChain root startDir, root <+: d := by
  intro startDir
  induction startDir using upChain.induct root with
  | case1 =>
    intro _
    rw [upChain]
    simp
  | case2 h =>
    intro hpre
    have h3 : root = ([] : FPath) := List.prefix_nil.mp hpre
    exact absurd h3.symm h
  | case3 startDir h h2 ih =>
    intro hpre
    obtain ⟨t, ht⟩ := hpre
    have htne : t ≠ [] := by
      intro hteq
      rw [hteq, List.append_nil] at ht
      exact h ht.symm
    have hdrop : startDir.dropLast = root ++ t.dropLast := by
      rw [← ht]
      exact List.dropLast_append_of_ne_nil root htne
    have hpre' : root <+: startDir.dropLast := ⟨t.dropLast, hdrop.symm⟩
    rw [upChain]
    simp only [h, if_false, h2, dite_false]
    obtain ⟨hmem, hall⟩ := ih hpre'
    refine ⟨List.mem_cons_of_mem _ hmem, ?_⟩
    intro d hd
    rcases List.mem_cons.mp hd with rfl | hd'
    · exact ⟨t, ht⟩
    · exact hall d hd'

/-- **C5**: for a bare request, node-module resolution probes
`<dir>/node_modules/<request>` starting at the importing file's
directory and walking parent by parent, up to and including the
workspace root and — when the importing file lies under the root —
never any directory above it; a scoped request such as `@scope/pkg`
names the single package directory `node_modules/@scope/pkg` (it is not
split into a scope lookup followed by a subpath), and when that
directory does not exist the level contributes nothing. -/
theorem C5_node_module_search :
    (∀ (fs : FS) (startDir : FPath) (pkg : String) (root : FPath),
        resolve_node_module_from_dir fs startDir pkg root
          = firstSome ((upChain root startDir).map
              fun d => resolve_node_module fs d pkg))
    ∧ (∀ (startDir root : FPath), root <+: startDir →
        root ∈ upChain root startDir ∧ ∀ d ∈ upChain root startDir, root <+: d)
    ∧ (∀ (fs : FS) (dir : FPath) (pkg : String),
        fs.existsP (dir ++ ["node_modules"] ++ segs pkg) = false →
        resolve_node_module fs dir pkg = none)
    ∧ segs "@scope/pkg" = ["@scope", "pkg"] := by
  refine ⟨fun fs startDir pkg root => rnm_from_dir_eq_walk fs pkg root startDir,
    fun startDir root h => upChain_bounded root startDir h, ?_, by decide⟩
  intro fs dir pkg h
  have h2 : fs.existsP (dir ++ "node_modules" :: segs pkg) = false := by
    simpa using h
  simp [resolve_node_module, h2]

/-- Witness for C5: the walk and its bounds at the directory
`/repo/src` under the workspace root `/repo`, and the scoped request
`@scope/pkg` probing a single nonexistent package directory. -/
theorem C5_witness :
    (resolve_node_module_from_dir fsW ["repo", "src"] "@scope/pkg" ["repo"]
        = firstSome ((upChain ["repo"] ["repo", "src"]).map
            fun d => resolve_node_module fsW d "@scope/pkg"))
    ∧ (["repo"] ∈ upChain ["repo"] ["repo", "src"]
        ∧ ∀ d ∈ upChain ["repo"] ["repo", "src"], ["repo"] <+: d)
    ∧ resolve_node_module fsW ["repo"] "@scope/pkg" = none :=
  ⟨C5_node_module_search.1 fsW ["repo", "src"] "@scope/pkg" ["repo"],
   C5_node_module_search.2.1 ["repo", "src"] ["repo"] (by decide),
   C5_node_module_search.2.2.1 fsW ["repo"] "@scope/pkg" (by decide)⟩

section ReachabilityLemmas

variable {V : Type} [Fintype V] [DecidableEq V]

/-- The visited set only grows during the traversal. -/
theorem reachAux_visited_subset (g : V → List V) :
    ∀ (stack : List V) (visited : Finset V), visited ⊆ reachAux g stack visited := by
  intro stack visited
  induction stack, visited using reachAux.induct g with
  | case1 visited => rw [reachAux]
  | case2 visited cur rest h ih =>
    rw [reachAux]
    simp only [h, if_true]
    exact ih
  | case3 visited cur rest h ih =>
    rw [reachAux]
    simp only [h, if_false]
    exact fun x hx => ih (Finset.mem_insert_of_mem hx)

/-- Every node on the work stack ends up in the returned set. -/
theorem reachAux_stack_subset (g : V → List V) :
    ∀ (stack : List V) (visited : Finset V) (x : V), x ∈ stack →
      x ∈ reachAux g stack visited := by
  intro stack visited
  induction stack, visited using reachAux.induct g with
  | case1 visited => intro x hx; simp at hx
  | case2 visited cur rest h ih =>
    intro x hx
    rw [reachAux]
    simp only [h, if_true]
    rcases List.mem_cons.mp hx with rfl | hx'
    · exact reachAux_visited_subset g rest visited h
    · exact ih x hx'
  | case3 visited cur rest h ih =>
    intro x hx
    rw [reachAux]
    simp only [h, if_false]
    rcases List.mem_cons.mp hx with rfl | hx'
    · exact reachAux_visited_subset g _ _ (Finset.mem_insert_self x visited)
    · exact ih x (List.mem_append_right _ hx')

/-- Soundness of the traversal: any property preserved along edges that
holds on the stack and the visited set holds on the whole result. -/
theorem reachAux_sound (g : V → List V) (P : V → Prop)
    (hstep : ∀ a b, P a → b ∈ g a → P b) :
    ∀ (stack : List V) (visited : Finset V),
      (∀ x ∈ stack, P x) → (∀ x ∈ visited, P x) →
      ∀ x ∈ reachAux g stack visited, P x := by
  intro stack visited
  induction stack, visited using reachAux.induct g with
  | case1 visited =>
    intro _ hv
    rw [reachAux]
    exact hv
  | case2 visited cur rest h ih =>
    intro hs hv
    rw [reachAux]
    simp only [h, if_true]
    exact ih (fun x hx => hs x (List.mem_cons_of_mem _ hx)) hv
  | case3 visited cur rest h ih =>
    intro hs hv
    rw [reachAux]
    simp only [h, if_false]
    have hcur : P cur := hs cur (List.mem_cons_self cur rest)
    refine ih ?_ ?_
    · intro x hx
      rcases List.mem_append.mp hx with hx' | hx'
      · rw [List.mem_reverse] at hx'
        exact hstep cur x hcur (List.mem_filter.mp hx').1
      · exact hs x (List.mem_cons_of_mem _ hx')
    · intro x hx
      rcases Finset.mem_insert.mp hx with rfl | hx'
      · exact hcur
      · exact hv x hx'

/-- Closure of the result: if the invariant "every edge out of a visited
node lands in the visited set or on the stack" holds initially, the
returned set is closed under edges. -/
theorem reachAux_closed (g : V → List V) :
    ∀ (stack : List V) (visited : Finset V),
      (∀ v ∈ visited, ∀ w ∈ g v, w ∈ visited ∨ w ∈ stack) →
      ∀ v ∈ reachAux g stack visited, ∀ w ∈ g v, w ∈ reachAux g stack visited := by
  intro stack visited
  induction stack, visited using reachAux.induct g with
  | case1 visited =>
    intro hInv v hv w hw
    rw [reachAux] at hv ⊢
    rcases hInv v hv w hw with h' | h'
    · exact h'
    · simp at h'
  | case2 visited cur rest h ih =>
    intro hInv
    rw [reachAux]
    simp only [h, if_true]
    apply ih
    intro v hv w hw
    rcases hInv v hv w hw with h' | h'
    · exact Or.inl h'
    · rcases List.mem_cons.mp h' with rfl | h''
      · exact Or.inl h
      · exact Or.inr h''
  | case3 visited cur rest h ih =>
    intro hInv
    rw [reachAux]
    simp only [h, if_false]
    apply ih
    intro v hv w hw
    rcases Finset.mem_insert.mp hv with rfl | hv'
    · by_cases hwv : w ∈ insert v visited
      · exact Or.inl hwv
      · refine Or.inr (List.mem_append_left _ ?_)
        rw [List.mem_reverse]
        exact List.mem_filter.mpr ⟨hw, by simpa using hwv⟩
    · rcases hInv v hv' w hw with h' | h'
      · exact Or.inl (Finset.mem_insert_of_mem h')
      · rcases List.mem_cons.mp h' with rfl | h''
        · exact Or.inl (Finset.mem_insert_self _ _)
        · exact Or.inr (List.mem_append_right _ h'')

/-- The traversal computes exactly the set of nodes reachable from the
start through resolved imports. -/
theorem mem_reachable_modules_iff
    (imports : V → Except Unit (List String)) (resolveF : V → String → Option V)
    (start v : V) :
    v ∈ reachable_modules imports resolveF start
      ↔ Relation.ReflTransGen
          (fun a b => b ∈ neighborsOf imports resolveF a) start v := by
  constructor
  · intro hv
    exact reachAux_sound (neighborsOf imports resolveF)
      (Relation.ReflTransGen (fun a b => b ∈ neighborsOf imports resolveF a) start)
      (fun a b ha hb => ha.tail hb) [start] ∅
      (fun x hx => by rcases List.mem_singleton.mp hx with rfl; exact .refl)
      (fun x hx => by simp at hx) v hv
  · intro hrtg
    induction hrtg with
    | refl =>
      exact reachAux_stack_subset _ [start] ∅ start (List.mem_singleton.mpr rfl)
    | tail hab hbc ih =>
      exact reachAux_closed (neighborsOf imports resolveF) [start] ∅
        (fun x hx => by simp at hx) _ ih _ hbc

end ReachabilityLemmas

/-- **C2**: for every finite import graph — cycles included —
`reachable_modules` terminates (it is a total function of the
well-founded traversal) and returns exactly the set of files reachable
from the start by transitively following resolved imports, the start
included; on the concrete cyclic graph `entry → A → B → C → A` it
returns exactly `{entry, A, B, C}`. -/
theorem C2_reachable_modules_exact :
    (∀ (V : Type) [Fintype V] [DecidableEq V]
        (imports : V → Except Unit (List String))
        (resolveF : V → String → Option V) (start v : V),
        v ∈ reachable_modules imports resolveF start
          ↔ Relation.ReflTransGen
              (fun a b => b ∈ neighborsOf imports resolveF a) start v)
    ∧ reachable_modules importsCycle resolveCycle 0 = ({0, 1, 2, 3} : Finset (Fin 4)) := by
  refine ⟨fun V _ _ imports resolveF start v =>
    mem_reachable_modules_iff imports resolveF start v, ?_⟩
  ext v
  constructor
  · intro _
    fin_cases v <;> decide
  · intro _
    rw [mem_reachable_modules_iff]
    have e01 : (1 : Fin 4) ∈ neighborsOf importsCycle resolveCycle 0 := by decide
    have e12 : (2 : Fin 4) ∈ neighborsOf importsCycle resolveCycle 1 := by decide
    have e23 : (3 : Fin 4) ∈ neighborsOf importsCycle resolveCycle 2 := by decide
    fin_cases v
    · exact .refl
    · exact .single e01
    · exact (Relation.ReflTransGen.single e01).tail e12
    · exact ((Relation.ReflTransGen.single e01).tail e12).tail e23

/-- **C3, counterexample**: on the cyclic graph
`entry → A → B → C → A`, `compute_depth` at the entry returns `4`
(`1 + 1 + 1 + (1 + 0)`, the back edge `C → A` contributing `0`), and
the cycle `A → B → C → A` has `3` distinct nodes, so the returned value
is *not* strictly less than the number of distinct nodes in the cycle. -/
theorem C3_counterexample :
    (compute_depth importsCycle resolveCycle 0 emptyMemo).1 = 4
    ∧ ({1, 2, 3} : Finset (Fin 4)).card = 3
    ∧ ¬((compute_depth importsCycle resolveCycle 0 emptyMemo).1
          < ({1, 2, 3} : Finset (Fin 4)).card) := by
  have h4 : (compute_depth importsCycle resolveCycle 0 emptyMemo).1 = 4 := by
    simp [compute_depth, compute_depth_internal, depth_children,
      importsCycle, resolveCycle, insertMemo, emptyMemo]
  refine ⟨h4, by decide, ?_⟩
  rw [h4]
  decide

/-- **C3, amended**: on the cyclic graph `entry → A → B → C → A`,
`compute_depth` at the entry returns the finite value `4`, which is at
most the number of distinct nodes of the whole graph (but not strictly
less than the `3` distinct nodes of the cycle); and re-entering a node
currently being computed (a back edge) returns depth `0` for that edge
without recursing further and without error (the result type of the
embedding is error-free, as the Rust function returns `Ok` on every
path). -/
theorem C3_amended_cycle_depth :
    ((compute_depth importsCycle resolveCycle 0 emptyMemo).1 = 4
      ∧ (compute_depth importsCycle resolveCycle 0 emptyMemo).1 ≤ Fintype.card (Fin 4))
    ∧ (∀ (V : Type) [Fintype V] [DecidableEq V]
        (imports : V → Except Unit (List String))
        (resolveF : V → String → Option V)
        (start : V) (cache : Memo V) (visiting : Finset V),
        cache start = none → start ∈ visiting →
        compute_depth_internal imports resolveF start cache visiting = (0, cache)) := by
  constructor
  · have h4 : (compute_depth importsCycle resolveCycle 0 emptyMemo).1 = 4 := by
      simp [compute_depth, compute_depth_internal, depth_children,
        importsCycle, resolveCycle, insertMemo, emptyMemo]
    exact ⟨h4, by rw [h4]; decide⟩
  · intro V _ _ imports resolveF start cache visiting hcache hvis
    simp [compute_depth_internal, hcache, hvis]

/-- Witness for the amended C3: the back-edge rule applied to a node of
the concrete cycle that is already being computed. -/
theorem C3_amended_witness :
    compute_depth_internal importsCycle resolveCycle 1 emptyMemo {1}
      = (0, emptyMemo) :=
  C3_amended_cycle_depth.2 (Fin 4) importsCycle resolveCycle 1 emptyMemo {1}
    rfl (by decide)

/-- **C6**: the cycle guard (re-entering a node currently being
computed) returns `0` and leaves the `DepthCache` untouched — in
particular the guard's `0` is never memoized for that node — while a
computation that does run to completion (cache miss, not in progress)
always leaves the cache holding exactly its returned value for that
node. -/
theorem C6_memoize_only_on_completion :
    (∀ (V : Type) [Fintype V] [DecidableEq V]
        (imports : V → Except Unit (List String))
        (resolveF : V → String → Option V)
        (start : V) (cache : Memo V) (visiting : Finset V),
        cache start = none → start ∈ visiting →
        compute_depth_internal imports resolveF start cache visiting = (0, cache))
    ∧ (∀ (V : Type) [Fintype V] [DecidableEq V]
        (imports : V → Except Unit (List String))
        (resolveF : V → String → Option V)
        (start : V) (cache : Memo V) (visiting : Finset V),
        cache start = none → start ∉ visiting →
        (compute_depth_internal imports resolveF start cache visiting).2 start
          = some (compute_depth_internal imports resolveF start cache visiting).1) := by
  constructor
  · intro V _ _ imports resolveF start cache visiting hcache hvis
    simp [compute_depth_internal, hcache, hvis]
  · intro V _ _ imports resolveF start cache visiting hcache hvis
    rw [compute_depth_internal]
    rw [hcache]
    simp only [hvis, if_false, ite_false]
    cases himp : imports start with
    | error e => simp [insertMemo]
    | ok specs =>
      by_cases hspecs : specs.isEmpty <;> simp [hspecs, insertMemo]

/-- Witness for C6: guard and completion behavior on the concrete
cycle. -/
theorem C6_witness :
    compute_depth_internal importsCycle resolveCycle 2 emptyMemo {2} = (0, emptyMemo)
    ∧ (compute_depth_internal importsCycle resolveCycle 3 emptyMemo ∅).2 3
        = some (compute_depth_internal importsCycle resolveCycle 3 emptyMemo ∅).1 :=
  ⟨C6_memoize_only_on_completion.1 (Fin 4) importsCycle resolveCycle 2 emptyMemo {2}
      rfl (by decide),
   C6_memoize_only_on_completion.2 (Fin 4) importsCycle resolveCycle 3 emptyMemo ∅
      rfl (by decide)⟩

/-- **C8**: recoverable failures never abort an analysis run. A file
whose `imports_for` fails contributes no resolved neighbors to the
reachability traversal and depth `0` (memoized) to the depth
computation; an unresolved specifier is silently skipped by both the
neighbor computation and the depth children loop; and the computations
are total, so the remaining files and imports are always processed. -/
theorem C8_recoverable_failures :
    (∀ (V : Type) (imports : V → Except Unit (List String))
        (resolveF : V → String → Option V) (v : V) (e : Unit),
        imports v = .error e → neighborsOf imports resolveF v = [])
    ∧ (∀ (V : Type) [Fintype V] [DecidableEq V]
        (imports : V → Except Unit (List String))
        (resolveF : V → String → Option V)
        (start : V) (cache : Memo V) (visiting : Finset V) (e : Unit),
        cache start = none → start ∉ visiting → imports start = .error e →
        compute_depth_internal imports resolveF start cache visiting
          = (0, insertMemo cache start 0))
    ∧ (∀ (V : Type) (imports : V → Except Unit (List String))
        (resolveF : V → String → Option V) (v : V) (s : String) (rest : List String),
        imports v = .ok (s :: rest) → resolveF v s = none →
        neighborsOf imports resolveF v = rest.filterMap (resolveF v))
    ∧ (∀ (V : Type) [Fintype V] [DecidableEq V]
        (imports : V → Except Unit (List String))
        (resolveF : V → String → Option V)
        (cur : V) (s : String) (rest : List String) (maxd : Nat)
        (cache : Memo V) (visiting : Finset V),
        resolveF cur s = none →
        depth_children imports resolveF cur (s :: rest) maxd cache visiting
          = depth_children imports resolveF cur rest maxd cache visiting) := by
  refine ⟨?_, ?_, ?_, ?_⟩
  · intro V imports resolveF v e h
    simp [neighborsOf, h, Except.toOption]
  · intro V _ _ imports resolveF start cache visiting e hcache hvis himp
    rw [compute_depth_internal]
    rw [hcache]
    simp [hvis, himp]
  · intro V imports resolveF v s rest himp hres
    simp [neighborsOf, himp, Except.toOption, List.filterMap_cons, hres]
  · intro V _ _ imports resolveF cur s rest maxd cache visiting hres
    rw [depth_children]
    rw [hres]

/-- Witness for C8, on a two-node graph where the first file is
unreadable/unparseable and the second file's only specifier is
unresolved. -/
theorem C8_witness :
    neighborsOf (fun v : Fin 2 => if v = 0 then .error () else .ok ["./gone"])
        (fun _ _ => none) 0 = []
    ∧ compute_depth_internal (fun v : Fin 2 => if v = 0 then .error () else .ok ["./gone"])
        (fun _ _ => none) 0 emptyMemo ∅
        = (0, insertMemo emptyMemo 0 0)
    ∧ neighborsOf (fun v : Fin 2 => if v = 0 then .error () else .ok ["./gone"])
        (fun _ _ => none) 1
        = List.filterMap (fun _ : String => (none : Option (Fin 2))) ([] : List String)
    ∧ depth_children (fun v : Fin 2 => if v = 0 then .error () else .ok ["./gone"])
        (fun _ _ => none) 1 ["./gone"] 0 emptyMemo {1}
        = depth_children (fun v : Fin 2 => if v = 0 then .error () else .ok ["./gone"])
            (fun _ _ => none) 1 [] 0 emptyMemo {1} :=
  ⟨C8_recoverable_failures.1 (Fin 2) _ _ 0 () rfl,
   C8_recoverable_failures.2.1 (Fin 2) _ _ 0 emptyMemo ∅ () rfl (by decide) rfl,
   C8_recoverable_failures.2.2.1 (Fin 2) _ _ 1 "./gone" [] rfl rfl,
   C8_recoverable_failures.2.2.2 (Fin 2) _ _ 1 "./gone" [] 0 emptyMemo {1} rfl⟩

/-- **C9**: for a fixed alias table and filesystem state, every
interleaved run of any number of resolver tasks sharing the
`(importing file, request)` key, started on an empty cache entry,
satisfies: every task that has returned observed the same pure result
`resolveCore fs root tbl fromFile req`; and once all (at least one)
tasks have returned, the `ResolveCache` holds exactly one entry for the
key — the single slot of the keyed map — whose value is that result. -/
theorem C9_concurrent_resolve_agreement :
    ∀ (fs : FS) (root : FPath) (tbl : List (String × List String))
      (fromFile : FPath) (req : String) (n : Nat) (final : ResolveSystem),
      Relation.ReflTransGen (ResolveStep (resolveCore fs root tbl fromFile req))
        (none, List.replicate n .ready) final →
      (∀ r, TaskPhase.finished r ∈ final.2 →
        r = resolveCore fs root tbl fromFile req)
      ∧ ((∀ t ∈ final.2, ∃ r, t = TaskPhase.finished r) → 0 < n →
        final.1 = some (resolveCore fs root tbl fromFile req)) := by
  intro fs root tbl fromFile req n final h
  have hinit : ResolveInv (resolveCore fs root tbl fromFile req)
      (none, List.replicate n .ready) := by
    refine ⟨Or.inl rfl, ?_, ?_, ?_⟩
    · intro r hr
      exact absurd (List.eq_of_mem_replicate hr) (by simp)
    · intro r hr
      exact absurd (List.eq_of_mem_replicate hr) (by simp)
    · rintro ⟨r, hr⟩
      exact absurd (List.eq_of_mem_replicate hr) (by simp)
  have hinv := resolveRun_inv _ _ _ h hinit
  refine ⟨hinv.2.2.1, ?_⟩
  intro hall hn
  have hlen : final.2.length = n := by
    rw [resolveRun_length _ _ _ h]
    exact List.length_replicate n _
  have hpos : 0 < final.2.length := by omega
  obtain ⟨t, ht⟩ := List.exists_mem_of_length_pos hpos
  obtain ⟨r, rfl⟩ := hall t ht
  exact hinv.2.2.2 ⟨r, ht⟩

/-- Witness for C9: an explicit interleaving of two tasks — both read
the empty cache and compute, then both insert — after which both have
returned the pure result and the cache holds it. -/
theorem C9_witness :
    (∀ r, TaskPhase.finished r
        ∈ (some (resolveCore fsW [] [] ["src", "file.js"] "./utils"),
           [TaskPhase.finished (resolveCore fsW [] [] ["src", "file.js"] "./utils"),
            TaskPhase.finished (resolveCore fsW [] [] ["src", "file.js"] "./utils")]).2 →
      r = resolveCore fsW [] [] ["src", "file.js"] "./utils")
    ∧ ((∀ t ∈ (some (resolveCore fsW [] [] ["src", "file.js"] "./utils"),
           [TaskPhase.finished (resolveCore fsW [] [] ["src", "file.js"] "./utils"),
            TaskPhase.finished (resolveCore fsW [] [] ["src", "file.js"] "./utils")]).2,
          ∃ r, t = TaskPhase.finished r) → 0 < 2 →
        (some (resolveCore fsW [] [] ["src", "file.js"] "./utils"),
           [TaskPhase.finished (resolveCore fsW [] [] ["src", "file.js"] "./utils"),
            TaskPhase.finished (resolveCore fsW [] [] ["src", "file.js"] "./utils")]).1
          = some (resolveCore fsW [] [] ["src", "file.js"] "./utils")) :=
  C9_concurrent_resolve_agreement fsW [] [] ["src", "file.js"] "./utils" 2
    (some (resolveCore fsW [] [] ["src", "file.js"] "./utils"),
     [TaskPhase.finished (resolveCore fsW [] [] ["src", "file.js"] "./utils"),
      TaskPhase.finished (resolveCore fsW [] [] ["src", "file.js"] "./utils")])
    (Relation.ReflTransGen.tail
      (Relation.ReflTransGen.tail
        (Relation.ReflTransGen.tail
          (Relation.ReflTransGen.single
            (ResolveStep.compute (List.replicate 2 .ready) 0 rfl))
          (ResolveStep.compute _ 1 rfl))
        (ResolveStep.insert _ _ 0 _ rfl))
      (ResolveStep.insert _ _ 1 _ rfl))

end Oxiclean
